import Mathlib

/-!
Shallow embedding of the limit order book with price-time-priority matching
from `src/src/VWAPCalculator.cpp` (class `OrderBook`), together with proofs
of the specification's testable properties.

Modelling choices:
* prices (`double` in the source) are rationals `ℚ`; all price operations in
  the source are comparisons and copies, so the ordering structure is all
  that matters;
* quantities, ids and timestamps (`int` / `long long`) are `Int`;
* `std::map<double, std::deque<Order>, std::greater<double>> bids` and
  `std::map<double, std::deque<Order>> asks` are association lists
  `List (ℚ × List Order)` kept sorted strictly descending (bids) resp.
  strictly ascending (asks) by key, mirroring the map iteration order;
* `std::unordered_map<int, std::pair<Side, double>> orderLocation` is an
  association list with unique keys; `orderLocation[id] = v` is modelled by
  removing any entry for `id` and appending `(id, v)` (lookup-equivalent);
* the `double` sentinels of the best-price cache (`0.0` for "no bid",
  `DBL_MAX` for "no ask") are modelled by `Option ℚ` with `none` as the
  sentinel;
* the trade lines printed by `matchOrders` are collected in a `List Trade`,
  and the final value of the by-reference `quantity` parameter is returned
  as `residual`.
-/

namespace OrderBookModel

inductive Side where
  | BUY
  | SELL
deriving DecidableEq, Repr

/-- `struct Order { int orderID; double price; int quantity; long long timestamp; }`. -/
structure Order where
  orderID : Int
  price : ℚ
  quantity : Int
  timestamp : Int
deriving DecidableEq, Repr

/-- One trade line printed by `matchOrders`:
`"Trade executed: <side> ID=orderID with <opp> ID=restingID at Price=restingPrice Qty=tradeQty"`. -/
structure Trade where
  aggressorID : Int
  restingID : Int
  price : ℚ
  qty : Int
deriving DecidableEq, Repr

/-- One price level of a ladder: the map key and its `std::deque<Order>`. -/
abbrev Level := ℚ × List Order

/-- The `OrderBook` state: both ladders, the order index, the best-price
cache and the arrival counter `currentTimestamp`. -/
structure OrderBook where
  bids : List Level
  asks : List Level
  orderLocation : List (Int × Side × ℚ)
  bestBid : Option ℚ
  bestAsk : Option ℚ
  currentTimestamp : Int
deriving DecidableEq, Repr

/-- `OrderBook()` default constructor. -/
def emptyBook : OrderBook := ⟨[], [], [], none, none, 0⟩

/-- Map lookup in a ladder (`bids.find(price)` / `asks.find(price)`). -/
def lookupLevel (l : List Level) (p : ℚ) : Option (List Order) :=
  match l with
  | [] => none
  | (p', q) :: rest => if p' = p then some q else lookupLevel rest p

/-- `bids[price].emplace_back(o)` on the descending-key bid ladder:
find (or create, at its sorted position) the level keyed `p` and append `o`. -/
def insertDesc (p : ℚ) (o : Order) (l : List Level) : List Level :=
  match l with
  | [] => [(p, [o])]
  | (p', q) :: rest =>
    if p' < p then (p, [o]) :: (p', q) :: rest
    else if p = p' then (p', q ++ [o]) :: rest
    else (p', q) :: insertDesc p o rest

/-- `asks[price].emplace_back(o)` on the ascending-key ask ladder. -/
def insertAsc (p : ℚ) (o : Order) (l : List Level) : List Level :=
  match l with
  | [] => [(p, [o])]
  | (p', q) :: rest =>
    if p < p' then (p, [o]) :: (p', q) :: rest
    else if p = p' then (p', q ++ [o]) :: rest
    else (p', q) :: insertAsc p o rest

/-- The ladder mutation done by `cancelOrder` at the stored price: remove
every order with the cancelled id from the level's queue (`std::remove_if`),
then erase the level if its queue became empty.  When no level with key `p`
exists, `bids[price]` creates an empty one that the emptiness check erases
again, so the net effect is no change. -/
def cancelLevel (l : List Level) (p : ℚ) (oid : Int) : List Level :=
  match l with
  | [] => []
  | (p', q) :: rest =>
    if p' = p then
      let q' := q.filter (fun o => o.orderID ≠ oid)
      if q' = [] then rest else (p', q') :: rest
    else (p', q) :: cancelLevel rest p oid

/-- `orderLocation.find(id)`. -/
def lookupLoc (l : List (Int × Side × ℚ)) (oid : Int) : Option (Side × ℚ) :=
  match l with
  | [] => none
  | (k, v) :: rest => if k = oid then some v else lookupLoc rest oid

/-- `orderLocation.erase(id)`. -/
def eraseLoc (l : List (Int × Side × ℚ)) (oid : Int) : List (Int × Side × ℚ) :=
  l.filter (fun e => e.1 ≠ oid)

/-- `orderLocation[id] = v` (insert-or-overwrite). -/
def setLoc (l : List (Int × Side × ℚ)) (oid : Int) (v : Side × ℚ) :
    List (Int × Side × ℚ) :=
  eraseLoc l oid ++ [(oid, v)]

/-- Erase each id of `ids` from the index (the interleaved
`orderLocation.erase(...)` calls of one `matchOrders` run). -/
def eraseAll (l : List (Int × Side × ℚ)) (ids : List Int) :
    List (Int × Side × ℚ) :=
  match ids with
  | [] => l
  | i :: rest => eraseAll (eraseLoc l i) rest

/-- Result of draining one price level's queue (the inner `while` of
`matchOrders`): the trades printed, the final value of `quantity`, the
queue left behind, and the ids of fully filled orders that were erased
from the order index. -/
structure QueueResult where
  trades : List Trade
  qtyLeft : Int
  queue : List Order
  filled : List Int
deriving DecidableEq, Repr

/-- The inner `while (quantity > 0 && !askQueue.empty())` loop of
`matchOrders`: trade against the queue front for `min(quantity, front.quantity)`,
pop the front when its remaining quantity reaches zero. -/
def matchQueue (aggID : Int) (qty : Int) (l : List Order) : QueueResult :=
  match l with
  | [] => ⟨[], qty, [], []⟩
  | o :: rest =>
    if 0 < qty then
      let t := min qty o.quantity
      let trade : Trade := ⟨aggID, o.orderID, o.price, t⟩
      if o.quantity - t = 0 then
        let r := matchQueue aggID (qty - t) rest
        ⟨trade :: r.trades, r.qtyLeft, r.queue, o.orderID :: r.filled⟩
      else
        ⟨[trade], qty - t, { o with quantity := o.quantity - t } :: rest, []⟩
    else ⟨[], qty, o :: rest, []⟩

/-- Result of one `matchOrders` run over the opposite ladder. -/
structure MatchResult where
  trades : List Trade
  qtyLeft : Int
  levels : List Level
  filled : List Int
deriving DecidableEq, Repr

/-- The outer `while` loop of `matchOrders`, over one ladder.  The BUY and
SELL branches of the source are verbatim-identical except for the crossing
comparison against the first key (`<= price` resp. `>= price`), abstracted
here as `cross`: drain the best (first) level while the incoming quantity is
positive and its key crosses, erasing a level whose queue becomes empty. -/
def matchLadder (aggID : Int) (cross : ℚ → Prop) [DecidablePred cross]
    (qty : Int) (l : List Level) : MatchResult :=
  match l with
  | [] => ⟨[], qty, [], []⟩
  | (p, lq) :: rest =>
    if 0 < qty ∧ cross p then
      let r := matchQueue aggID qty lq
      if r.queue = [] then
        let r2 := matchLadder aggID cross r.qtyLeft rest
        ⟨r.trades ++ r2.trades, r2.qtyLeft, r2.levels, r.filled ++ r2.filled⟩
      else
        ⟨r.trades, r.qtyLeft, (p, r.queue) :: rest, r.filled⟩
    else ⟨[], qty, (p, lq) :: rest, []⟩

/-- The `side == BUY` branch of `matchOrders`:
`while (quantity > 0 && !asks.empty() && asks.begin()->first <= price)`. -/
def matchBuy (aggID : Int) (limit : ℚ) (qty : Int) (asks : List Level) :
    MatchResult :=
  matchLadder aggID (fun p => p ≤ limit) qty asks

/-- The `side == SELL` branch of `matchOrders`:
`while (quantity > 0 && !bids.empty() && bids.begin()->first >= price)`. -/
def matchSell (aggID : Int) (limit : ℚ) (qty : Int) (bids : List Level) :
    MatchResult :=
  matchLadder aggID (fun p => limit ≤ p) qty bids

/-- Observable result of `addOrder`: the new book state, the trade lines
printed, and the final value of the matched-down `quantity` variable
(zero when fully executed upon entry, otherwise the resting remainder). -/
structure SubmitResult where
  book : OrderBook
  trades : List Trade
  residual : Int
deriving DecidableEq, Repr

/-- `OrderBook::addOrder(side, price, quantity, orderID)`: reject
non-positive quantity before any mutation, else bump `currentTimestamp`,
match against the opposite ladder, rest any remainder at the back of its
price level, record it in the order index, and refresh the best-price
cache (`updateBestPrices`). -/
def addOrder (b : OrderBook) (side : Side) (price : ℚ) (quantity : Int)
    (orderID : Int) : SubmitResult :=
  if quantity ≤ 0 then ⟨b, [], quantity⟩
  else
    let ts := b.currentTimestamp + 1
    match side with
    | Side.BUY =>
      let r := matchBuy orderID price quantity b.asks
      let loc1 := eraseAll b.orderLocation r.filled
      if 0 < r.qtyLeft then
        let bids' := insertDesc price ⟨orderID, price, r.qtyLeft, ts⟩ b.bids
        ⟨⟨bids', r.levels, setLoc loc1 orderID (Side.BUY, price),
          bids'.head?.map Prod.fst, r.levels.head?.map Prod.fst, ts⟩,
         r.trades, r.qtyLeft⟩
      else
        ⟨⟨b.bids, r.levels, loc1,
          b.bids.head?.map Prod.fst, r.levels.head?.map Prod.fst, ts⟩,
         r.trades, r.qtyLeft⟩
    | Side.SELL =>
      let r := matchSell orderID price quantity b.bids
      let loc1 := eraseAll b.orderLocation r.filled
      if 0 < r.qtyLeft then
        let asks' := insertAsc price ⟨orderID, price, r.qtyLeft, ts⟩ b.asks
        ⟨⟨r.levels, asks', setLoc loc1 orderID (Side.SELL, price),
          r.levels.head?.map Prod.fst, asks'.head?.map Prod.fst, ts⟩,
         r.trades, r.qtyLeft⟩
      else
        ⟨⟨r.levels, b.asks, loc1,
          r.levels.head?.map Prod.fst, b.asks.head?.map Prod.fst, ts⟩,
         r.trades, r.qtyLeft⟩

/-- `OrderBook::cancelOrder(orderID)`: index lookup; on miss return `false`
with no state change; on hit remove the order from its level's queue, drop
the level if emptied, erase the index entry, refresh the cache, return
`true`. -/
def cancelOrder (b : OrderBook) (orderID : Int) : OrderBook × Bool :=
  match lookupLoc b.orderLocation orderID with
  | none => (b, false)
  | some (side, price) =>
    match side with
    | Side.BUY =>
      let bids' := cancelLevel b.bids price orderID
      (⟨bids', b.asks, eraseLoc b.orderLocation orderID,
        bids'.head?.map Prod.fst, b.asks.head?.map Prod.fst,
        b.currentTimestamp⟩, true)
    | Side.SELL =>
      let asks' := cancelLevel b.asks price orderID
      (⟨b.bids, asks', eraseLoc b.orderLocation orderID,
        b.bids.head?.map Prod.fst, asks'.head?.map Prod.fst,
        b.currentTimestamp⟩, true)

/-- `OrderBook::getBestBid()` — pure read of the cache. -/
def getBestBid (b : OrderBook) : Option ℚ := b.bestBid

/-- `OrderBook::getBestAsk()` — pure read of the cache. -/
def getBestAsk (b : OrderBook) : Option ℚ := b.bestAsk

/-- The ladder a given side rests on. -/
def sideLadder (b : OrderBook) (s : Side) : List Level :=
  match s with
  | Side.BUY => b.bids
  | Side.SELL => b.asks

/-! ### Book invariants -/

/-- Bid ladder keys strictly descending (`std::greater<double>` map order). -/
def bidsSorted (l : List Level) : Prop :=
  (l.map Prod.fst).Pairwise (fun a b => b < a)

/-- Ask ladder keys strictly ascending (default map order). -/
def asksSorted (l : List Level) : Prop :=
  (l.map Prod.fst).Pairwise (fun a b => a < b)

/-- No price level carries an empty queue. -/
def noEmpty (l : List Level) : Prop := ∀ lvl ∈ l, lvl.2 ≠ ([] : List Order)

/-- Every resting order's `price` field equals its level's key. -/
def pricesMatch (l : List Level) : Prop :=
  ∀ lvl ∈ l, ∀ o ∈ lvl.2, o.price = lvl.1

instance (l : List Level) : Decidable (noEmpty l) :=
  List.decidableBAll _ l

instance (l : List Level) : Decidable (bidsSorted l) :=
  inferInstanceAs (Decidable (List.Pairwise _ _))

instance (l : List Level) : Decidable (asksSorted l) :=
  inferInstanceAs (Decidable (List.Pairwise _ _))

instance (l : List Level) : Decidable (pricesMatch l) :=
  List.decidableBAll _ l

/-- Keys of the levels that have a non-empty queue. -/
def liveKeys (l : List Level) : List ℚ :=
  (l.filter (fun lvl => ¬ lvl.2.isEmpty)).map Prod.fst

/-- The cached best bid is the maximum live bid key (or the sentinel). -/
def bidCacheCorrect (b : OrderBook) : Prop :=
  (∀ m, b.bestBid = some m ↔ m ∈ liveKeys b.bids ∧ ∀ k ∈ liveKeys b.bids, k ≤ m)
    ∧ (b.bestBid = none ↔ liveKeys b.bids = [])

/-- The cached best ask is the minimum live ask key (or the sentinel). -/
def askCacheCorrect (b : OrderBook) : Prop :=
  (∀ m, b.bestAsk = some m ↔ m ∈ liveKeys b.asks ∧ ∀ k ∈ liveKeys b.asks, m ≤ k)
    ∧ (b.bestAsk = none ↔ liveKeys b.asks = [])

/-! ### Lemmas about `matchQueue` -/

theorem matchQueue_conserv (a q : Int) (l : List Order) :
    q = ((matchQueue a q l).trades.map Trade.qty).sum
      + (matchQueue a q l).qtyLeft := by
  induction l generalizing q with
  | nil => simp [matchQueue]
  | cons o rest ih =>
    by_cases hq : 0 < q
    · by_cases hz : o.quantity - min q o.quantity = 0
      · have h := ih (q - min q o.quantity)
        simp only [matchQueue, if_pos hq, if_pos hz, List.map_cons,
          List.sum_cons]
        omega
      · simp only [matchQueue, if_pos hq, if_neg hz, List.map_cons,
          List.map_nil, List.sum_cons, List.sum_nil]
        omega
    · simp [matchQueue, hq]

theorem matchQueue_trades_src (a q : Int) (l : List Order) :
    ∀ t ∈ (matchQueue a q l).trades, ∃ o ∈ l,
      t.aggressorID = a ∧ t.restingID = o.orderID ∧ t.price = o.price
        ∧ t.qty ≤ o.quantity := by
  induction l generalizing q with
  | nil => simp [matchQueue]
  | cons o rest ih =>
    by_cases hq : 0 < q
    · by_cases hz : o.quantity - min q o.quantity = 0
      · simp only [matchQueue, if_pos hq, if_pos hz, List.mem_cons]
        rintro t (rfl | ht)
        · exact ⟨o, Or.inl rfl, rfl, rfl, rfl, min_le_right _ _⟩
        · obtain ⟨o', ho', h1, h2, h3, h4⟩ := ih (q - min q o.quantity) t ht
          exact ⟨o', Or.inr ho', h1, h2, h3, h4⟩
      · simp only [matchQueue, if_pos hq, if_neg hz, List.mem_cons,
          List.not_mem_nil, or_false]
        rintro t rfl
        exact ⟨o, Or.inl rfl, rfl, rfl, rfl, min_le_right _ _⟩
    · simp [matchQueue, hq]

theorem matchQueue_head (a q : Int) (o : Order) (rest : List Order)
    (hq : 0 < q) :
    ∃ ts, (matchQueue a q (o :: rest)).trades
      = ⟨a, o.orderID, o.price, min q o.quantity⟩ :: ts := by
  by_cases hz : o.quantity - min q o.quantity = 0
  · exact ⟨(matchQueue a (q - min q o.quantity) rest).trades,
      by simp [matchQueue, hq, hz]⟩
  · exact ⟨[], by simp [matchQueue, hq, hz]⟩

/-- Structural characterization of one level drain: some prefix of `k`
orders is fully filled and removed (their ids recorded in `filled`), the
trades hit the queue front-to-back (resting ids are a prefix of the queue's
ids), the survivors are the remaining suffix in order, every survivor
behind the front is untouched, and the front survivor kept its id with at
most its quantity reduced. -/
theorem matchQueue_struct (a q : Int) (l : List Order) :
    ∃ k, k ≤ l.length ∧
      (matchQueue a q l).filled = (l.take k).map Order.orderID ∧
      (matchQueue a q l).queue.map Order.orderID
        = (l.map Order.orderID).drop k ∧
      (matchQueue a q l).queue.tail = (l.drop k).tail ∧
      (matchQueue a q l).trades.map Trade.restingID
        = (l.map Order.orderID).take (matchQueue a q l).trades.length ∧
      ((matchQueue a q l).trades.length = k
        ∨ (matchQueue a q l).trades.length = k + 1) ∧
      (∀ h ∈ (matchQueue a q l).queue.head?, ∃ h0 ∈ (l.drop k).head?,
        h.orderID = h0.orderID ∧ h.quantity ≤ h0.quantity) := by
  induction l generalizing q with
  | nil => exact ⟨0, by simp [matchQueue]⟩
  | cons o rest ih =>
    by_cases hq : 0 < q
    · by_cases hz : o.quantity - min q o.quantity = 0
      · obtain ⟨k, hk, h1, h2, h3, h4, h5, h6⟩ := ih (q - min q o.quantity)
        refine ⟨k + 1, ?_, ?_, ?_, ?_, ?_, ?_, ?_⟩ <;>
          simp only [matchQueue, if_pos hq, if_pos hz, List.length_cons,
            List.take_cons, List.map_cons, List.drop_succ_cons,
            List.tail_cons]
        · omega
        · simpa using h1
        · simpa using h2
        · simpa using h3
        · simpa using h4
        · omega
        · simpa using h6
      · refine ⟨0, ?_⟩
        have hmin : 0 ≤ min q o.quantity := by omega
        simp only [matchQueue, if_pos hq, if_neg hz]
        refine ⟨by omega, rfl, by simp, by simp, by simp, Or.inr rfl, ?_⟩
        simp only [List.head?_cons, List.drop_zero, Option.mem_def,
          Option.some.injEq]
        rintro h rfl
        refine ⟨o, rfl, rfl, ?_⟩
        show o.quantity - min q o.quantity ≤ o.quantity
        omega
    · refine ⟨0, ?_⟩
      simp only [matchQueue, if_neg hq]
      refine ⟨by omega, rfl, by simp, by simp, by simp, Or.inl rfl, ?_⟩
      simp only [List.head?_cons, List.drop_zero, Option.mem_def,
        Option.some.injEq]
      rintro h rfl
      exact ⟨o, rfl, rfl, le_refl _⟩

/-- Per-trade quantity law of one level drain: the trade at position
`pre.length` hits the queued order at the same position, for exactly the
minimum of the aggressor's remaining quantity at that point
(`q` minus the quantities already traded) and that order's resting
quantity. -/
theorem matchQueue_trade_qty (a q : Int) (l : List Order) :
    ∀ pre t post, (matchQueue a q l).trades = pre ++ t :: post →
      ∃ opre o opost, l = opre ++ o :: opost ∧ opre.length = pre.length ∧
        t.restingID = o.orderID ∧
        t.qty = min (q - (pre.map Trade.qty).sum) o.quantity := by
  induction l generalizing q with
  | nil => intro pre t post h; simp [matchQueue] at h
  | cons o rest ih =>
    intro pre t post h
    by_cases hq : 0 < q
    · by_cases hz : o.quantity - min q o.quantity = 0
      · simp only [matchQueue, if_pos hq, if_pos hz] at h
        cases pre with
        | nil =>
          simp only [List.nil_append, List.cons.injEq] at h
          exact ⟨[], o, rest, rfl, rfl, by rw [← h.1], by simp [← h.1]⟩
        | cons t0 pre' =>
          simp only [List.cons_append, List.cons.injEq] at h
          obtain ⟨opre, o', opost, hsplit, hlen, hid, hqty⟩ :=
            ih (q - min q o.quantity) pre' t post h.2
          refine ⟨o :: opre, o', opost, by rw [hsplit]; rfl, by simp [hlen],
            hid, ?_⟩
          rw [hqty, ← h.1]
          simp only [List.map_cons, List.sum_cons]
          congr 1
          omega
      · simp only [matchQueue, if_pos hq, if_neg hz] at h
        cases pre with
        | nil =>
          simp only [List.nil_append, List.cons.injEq] at h
          exact ⟨[], o, rest, rfl, rfl, by rw [← h.1], by simp [← h.1]⟩
        | cons t0 pre' => simp at h
    · simp [matchQueue, hq] at h

/-! ### Lemmas about `matchLadder` -/

theorem matchLadder_conserv (a : Int) (cross : ℚ → Prop) [DecidablePred cross]
    (q : Int) (l : List Level) :
    q = ((matchLadder a cross q l).trades.map Trade.qty).sum
      + (matchLadder a cross q l).qtyLeft := by
  induction l generalizing q with
  | nil => simp [matchLadder]
  | cons lvl rest ih =>
    obtain ⟨p, lq⟩ := lvl
    by_cases hc : 0 < q ∧ cross p
    · by_cases hemp : (matchQueue a q lq).queue = []
      · simp only [matchLadder, if_pos hc, if_pos hemp, List.map_append,
          List.sum_append]
        have h1 := matchQueue_conserv a q lq
        have h2 := ih (matchQueue a q lq).qtyLeft
        omega
      · simp only [matchLadder, if_pos hc, if_neg hemp]
        exact matchQueue_conserv a q lq
    · simp [matchLadder, hc]

theorem matchLadder_trades_src (a : Int) (cross : ℚ → Prop)
    [DecidablePred cross] (q : Int) (l : List Level) :
    ∀ t ∈ (matchLadder a cross q l).trades, ∃ lvl ∈ l, cross lvl.1 ∧
      ∃ o ∈ lvl.2, t.aggressorID = a ∧ t.restingID = o.orderID ∧
        t.price = o.price ∧ t.qty ≤ o.quantity := by
  induction l generalizing q with
  | nil => simp [matchLadder]
  | cons lvl rest ih =>
    obtain ⟨p, lq⟩ := lvl
    intro t ht
    by_cases hc : 0 < q ∧ cross p
    · by_cases hemp : (matchQueue a q lq).queue = []
      · simp only [matchLadder, if_pos hc, if_pos hemp,
          List.mem_append] at ht
        rcases ht with ht | ht
        · obtain ⟨o, ho, h1, h2, h3, h4⟩ := matchQueue_trades_src a q lq t ht
          exact ⟨(p, lq), List.mem_cons_self _ _, hc.2, o, ho, h1, h2, h3, h4⟩
        · obtain ⟨lvl, hlvl, hcr, rest'⟩ := ih (matchQueue a q lq).qtyLeft t ht
          exact ⟨lvl, List.mem_cons_of_mem _ hlvl, hcr, rest'⟩
      · simp only [matchLadder, if_pos hc, if_neg hemp] at ht
        obtain ⟨o, ho, h1, h2, h3, h4⟩ := matchQueue_trades_src a q lq t ht
        exact ⟨(p, lq), List.mem_cons_self _ _, hc.2, o, ho, h1, h2, h3, h4⟩
    · simp [matchLadder, hc] at ht

theorem matchLadder_levels_suffix (a : Int) (cross : ℚ → Prop)
    [DecidablePred cross] (q : Int) (l : List Level) :
    ∃ n, (matchLadder a cross q l).levels.map Prod.fst
      = (l.map Prod.fst).drop n := by
  induction l generalizing q with
  | nil => exact ⟨0, by simp [matchLadder]⟩
  | cons lvl rest ih =>
    obtain ⟨p, lq⟩ := lvl
    by_cases hc : 0 < q ∧ cross p
    · by_cases hemp : (matchQueue a q lq).queue = []
      · obtain ⟨n, hn⟩ := ih (matchQueue a q lq).qtyLeft
        refine ⟨n + 1, ?_⟩
        simp only [matchLadder, if_pos hc, if_pos hemp]
        simpa using hn
      · exact ⟨0, by simp [matchLadder, hc, hemp]⟩
    · exact ⟨0, by simp [matchLadder, hc]⟩

theorem matchLadder_levels_key_mem (a : Int) (cross : ℚ → Prop)
    [DecidablePred cross] (q : Int) (l : List Level) :
    ∀ lvl ∈ (matchLadder a cross q l).levels, lvl.1 ∈ l.map Prod.fst := by
  intro lvl hlvl
  obtain ⟨n, hn⟩ := matchLadder_levels_suffix a cross q l
  have : lvl.1 ∈ (matchLadder a cross q l).levels.map Prod.fst :=
    List.mem_map_of_mem _ hlvl
  rw [hn] at this
  exact List.mem_of_mem_drop this

theorem matchLadder_noEmpty (a : Int) (cross : ℚ → Prop)
    [DecidablePred cross] (q : Int) (l : List Level) (h : noEmpty l) :
    noEmpty (matchLadder a cross q l).levels := by
  induction l generalizing q with
  | nil => intro lvl hlvl; simp [matchLadder] at hlvl
  | cons lvl0 rest ih =>
    obtain ⟨p, lq⟩ := lvl0
    have hrest : noEmpty rest := fun lvl hm => h lvl (List.mem_cons_of_mem _ hm)
    by_cases hc : 0 < q ∧ cross p
    · by_cases hemp : (matchQueue a q lq).queue = []
      · intro lvl hm
        simp only [matchLadder, if_pos hc, if_pos hemp] at hm
        exact ih (matchQueue a q lq).qtyLeft hrest lvl hm
      · intro lvl hm
        simp only [matchLadder, if_pos hc, if_neg hemp] at hm
        rcases List.mem_cons.mp hm with rfl | hm
        · simpa using hemp
        · exact hrest lvl hm
    · intro lvl hm
      simp only [matchLadder, if_neg hc] at hm
      exact h lvl hm

theorem pairwise_const {α : Type} (S : α → α → Prop) (c : α) (L : List α)
    (h : ∀ x ∈ L, x = c) (hS : S c c) : L.Pairwise S := by
  induction L with
  | nil => exact List.Pairwise.nil
  | cons x xs ih =>
    refine List.Pairwise.cons ?_ (ih fun y hy => h y (List.mem_cons_of_mem _ hy))
    intro y hy
    rw [h x (List.mem_cons_self _ _), h y (List.mem_cons_of_mem _ hy)]
    exact hS

theorem matchQueue_price_const (a q : Int) (lq : List Order) (p : ℚ)
    (hpm : ∀ o ∈ lq, o.price = p) :
    ∀ t ∈ (matchQueue a q lq).trades, t.price = p := by
  intro t ht
  obtain ⟨o, ho, _, _, hp, _⟩ := matchQueue_trades_src a q lq t ht
  rw [hp, hpm o ho]

/-- Price priority, generically over the crossing test: when the ladder
keys are pairwise related by `R` (the ladder's sort order) and every order
sits under its level key, the emitted trade prices are pairwise related by
any reflexive weakening `S` of `R` (best price first), and every emitted
trade's price relates by `S` to every surviving level's key (worse liquidity
trades only after better liquidity is exhausted). -/
theorem matchLadder_prices (a : Int) (cross : ℚ → Prop) [DecidablePred cross]
    (R S : ℚ → ℚ → Prop) (hRS : ∀ x y, R x y → S x y) (hrefl : ∀ x, S x x)
    (q : Int) (l : List Level)
    (hsort : (l.map Prod.fst).Pairwise R) (hpm : pricesMatch l) :
    ((matchLadder a cross q l).trades.map Trade.price).Pairwise S ∧
      (∀ t ∈ (matchLadder a cross q l).trades,
        ∀ lvl ∈ (matchLadder a cross q l).levels, S t.price lvl.1) := by
  induction l generalizing q with
  | nil => simp [matchLadder]
  | cons lvl0 rest ih =>
    obtain ⟨p, lq⟩ := lvl0
    have hpm0 : ∀ o ∈ lq, o.price = p := fun o ho =>
      hpm (p, lq) (List.mem_cons_self _ _) o ho
    have hpmrest : pricesMatch rest := fun lvl hm =>
      hpm lvl (List.mem_cons_of_mem _ hm)
    have hsortrest : (rest.map Prod.fst).Pairwise R :=
      (List.pairwise_cons.mp (by simpa using hsort)).2
    have hSp : ∀ k ∈ rest.map Prod.fst, S p k := fun k hk =>
      hRS p k ((List.pairwise_cons.mp (by simpa using hsort)).1 k hk)
    by_cases hc : 0 < q ∧ cross p
    · by_cases hemp : (matchQueue a q lq).queue = []
      · obtain ⟨ih1, ih2⟩ := ih (matchQueue a q lq).qtyLeft hsortrest hpmrest
        constructor
        · simp only [matchLadder, if_pos hc, if_pos hemp, List.map_append]
          rw [List.pairwise_append]
          refine ⟨?_, ih1, ?_⟩
          · refine pairwise_const S p _ ?_ (hrefl p)
            intro x hx
            obtain ⟨t, ht, rfl⟩ := List.mem_map.mp hx
            exact matchQueue_price_const a q lq p hpm0 t ht
          · intro x hx y hy
            obtain ⟨t, ht, rfl⟩ := List.mem_map.mp hx
            obtain ⟨t', ht', rfl⟩ := List.mem_map.mp hy
            rw [matchQueue_price_const a q lq p hpm0 t ht]
            obtain ⟨lvl', hlvl', _, o, ho, _, _, hp', _⟩ :=
              matchLadder_trades_src a cross _ rest t' ht'
            rw [hp', hpmrest lvl' hlvl' o ho]
            exact hSp lvl'.1 (List.mem_map_of_mem _ hlvl')
        · intro t ht lvl hlvl
          simp only [matchLadder, if_pos hc, if_pos hemp,
            List.mem_append] at ht hlvl
          rcases ht with ht | ht
          · rw [matchQueue_price_const a q lq p hpm0 t ht]
            exact hSp lvl.1
              (matchLadder_levels_key_mem a cross _ rest lvl hlvl)
          · exact ih2 t ht lvl hlvl
      · constructor
        · simp only [matchLadder, if_pos hc, if_neg hemp]
          refine pairwise_const S p _ ?_ (hrefl p)
          intro x hx
          obtain ⟨t, ht, rfl⟩ := List.mem_map.mp hx
          exact matchQueue_price_const a q lq p hpm0 t ht
        · intro t ht lvl hlvl
          simp only [matchLadder, if_pos hc, if_neg hemp] at ht hlvl
          rw [matchQueue_price_const a q lq p hpm0 t ht]
          rcases List.mem_cons.mp hlvl with rfl | hlvl
          · exact hrefl p
          · exact hSp lvl.1 (List.mem_map_of_mem _ hlvl)
    · simp [matchLadder, hc]

/-- When the incoming quantity is positive and the first level's key
crosses, the very first trade is against the front order of that level. -/
theorem matchLadder_progress (a : Int) (cross : ℚ → Prop)
    [DecidablePred cross] (q : Int) (p : ℚ) (o : Order) (lq' : List Order)
    (rest : List Level) (hq : 0 < q) (hc : cross p) :
    ∃ ts, (matchLadder a cross q ((p, o :: lq') :: rest)).trades
      = ⟨a, o.orderID, o.price, min q o.quantity⟩ :: ts := by
  obtain ⟨ts0, hts0⟩ := matchQueue_head a q o lq' hq
  by_cases hemp : (matchQueue a q (o :: lq')).queue = []
  · refine ⟨ts0 ++ (matchLadder a cross
      (matchQueue a q (o :: lq')).qtyLeft rest).trades, ?_⟩
    simp only [matchLadder, if_pos (And.intro hq hc), if_pos hemp, hts0]
    simp
  · exact ⟨ts0, by
      simp only [matchLadder, if_pos (And.intro hq hc), if_neg hemp]
      exact hts0⟩

/-- When the first (best) level does not cross — or the ladder is empty —
the whole match loop is a no-op. -/
theorem matchLadder_frame (a : Int) (cross : ℚ → Prop) [DecidablePred cross]
    (q : Int) (l : List Level) (h : ∀ lvl ∈ l.head?, ¬ cross lvl.1) :
    matchLadder a cross q l = ⟨[], q, l, []⟩ := by
  cases l with
  | nil => simp [matchLadder]
  | cons lvl rest =>
    obtain ⟨p, lq⟩ := lvl
    have hnc : ¬ cross p := h (p, lq) (by simp)
    have : ¬ (0 < q ∧ cross p) := fun hh => hnc hh.2
    simp [matchLadder, this]

/-- Per-trade quantity law of a whole match run: each emitted trade hits a
resting order of the pre-match ladder, for exactly the minimum of the
aggressor's remaining quantity at that point and that order's pre-trade
resting quantity. -/
theorem matchLadder_trade_qty (a : Int) (cross : ℚ → Prop)
    [DecidablePred cross] (q : Int) (l : List Level) :
    ∀ pre t post, (matchLadder a cross q l).trades = pre ++ t :: post →
      ∃ lvl ∈ l, ∃ o ∈ lvl.2, t.restingID = o.orderID ∧
        t.qty = min (q - (pre.map Trade.qty).sum) o.quantity := by
  induction l generalizing q with
  | nil => intro pre t post h; simp [matchLadder] at h
  | cons lvl0 rest ih =>
    obtain ⟨p, lq⟩ := lvl0
    intro pre t post h
    by_cases hc : 0 < q ∧ cross p
    · by_cases hemp : (matchQueue a q lq).queue = []
      · simp only [matchLadder, if_pos hc, if_pos hemp] at h
        rcases List.append_eq_append_iff.mp h with ⟨a', ha1, ha2⟩
          | ⟨c', hc1, hc2⟩
        · obtain ⟨lvl, hlvl, o, ho, hid, hqty⟩ :=
            ih (matchQueue a q lq).qtyLeft a' t post ha2
          refine ⟨lvl, List.mem_cons_of_mem _ hlvl, o, ho, hid, ?_⟩
          rw [hqty, ha1]
          have hcons := matchQueue_conserv a q lq
          simp only [List.map_append, List.sum_append]
          congr 1
          omega
        · cases c' with
          | nil =>
            simp only [List.append_nil] at hc1
            simp only [List.nil_append] at hc2
            obtain ⟨lvl, hlvl, o, ho, hid, hqty⟩ :=
              ih (matchQueue a q lq).qtyLeft [] t post hc2.symm
            refine ⟨lvl, List.mem_cons_of_mem _ hlvl, o, ho, hid, ?_⟩
            rw [hqty, ← hc1]
            have hcons := matchQueue_conserv a q lq
            simp only [List.map_nil, List.sum_nil]
            congr 1
            omega
          | cons t0 c'' =>
            have ht0 : t0 = t := by
              simp only [List.cons_append, List.cons.injEq] at hc2
              exact hc2.1.symm
            obtain ⟨opre, o, opost, hsplit, hlen, hid, hqty⟩ :=
              matchQueue_trade_qty a q lq pre t c'' (by rw [hc1, ht0])
            have ho : o ∈ lq := by
              rw [hsplit]
              exact List.mem_append_right _ (List.mem_cons_self _ _)
            exact ⟨(p, lq), List.mem_cons_self _ _, o, ho, hid, hqty⟩
      · simp only [matchLadder, if_pos hc, if_neg hemp] at h
        obtain ⟨opre, o, opost, hsplit, hlen, hid, hqty⟩ :=
          matchQueue_trade_qty a q lq pre t post h
        have ho : o ∈ lq := by
          rw [hsplit]
          exact List.mem_append_right _ (List.mem_cons_self _ _)
        exact ⟨(p, lq), List.mem_cons_self _ _, o, ho, hid, hqty⟩
    · simp [matchLadder, hc] at h

/-! ### Lemmas about ladder insertion -/

theorem insertDesc_key_mem (p : ℚ) (o : Order) (l : List Level) :
    ∀ k ∈ (insertDesc p o l).map Prod.fst, k = p ∨ k ∈ l.map Prod.fst := by
  induction l with
  | nil => simp [insertDesc]
  | cons lvl rest ih =>
    obtain ⟨p', q⟩ := lvl
    by_cases h1 : p' < p
    · simp only [insertDesc, if_pos h1]
      intro k hk
      simpa using hk
    · by_cases h2 : p = p'
      · simp only [insertDesc, if_neg h1, if_pos h2]
        intro k hk
        simpa using Or.inr (by simpa using hk)
      · simp only [insertDesc, if_neg h1, if_neg h2, List.map_cons,
          List.mem_cons]
        intro k hk
        rcases hk with rfl | hk
        · simp
        · rcases ih k hk with rfl | hk
          · exact Or.inl rfl
          · exact Or.inr (by simp [hk])

theorem insertAsc_key_mem (p : ℚ) (o : Order) (l : List Level) :
    ∀ k ∈ (insertAsc p o l).map Prod.fst, k = p ∨ k ∈ l.map Prod.fst := by
  induction l with
  | nil => simp [insertAsc]
  | cons lvl rest ih =>
    obtain ⟨p', q⟩ := lvl
    by_cases h1 : p < p'
    · simp only [insertAsc, if_pos h1]
      intro k hk
      simpa using hk
    · by_cases h2 : p = p'
      · simp only [insertAsc, if_neg h1, if_pos h2]
        intro k hk
        simpa using Or.inr (by simpa using hk)
      · simp only [insertAsc, if_neg h1, if_neg h2, List.map_cons,
          List.mem_cons]
        intro k hk
        rcases hk with rfl | hk
        · simp
        · rcases ih k hk with rfl | hk
          · exact Or.inl rfl
          · exact Or.inr (by simp [hk])

theorem insertDesc_sorted (p : ℚ) (o : Order) (l : List Level)
    (h : bidsSorted l) : bidsSorted (insertDesc p o l) := by
  induction l with
  | nil => simp [insertDesc, bidsSorted]
  | cons lvl rest ih =>
    obtain ⟨p', q⟩ := lvl
    rw [bidsSorted, List.map_cons, List.pairwise_cons] at h
    obtain ⟨h1, h2⟩ := h
    by_cases hlt : p' < p
    · rw [insertDesc, if_pos hlt]
      rw [bidsSorted, List.map_cons, List.map_cons, List.pairwise_cons]
      refine ⟨?_, ?_⟩
      · intro k hk
        rcases List.mem_cons.mp hk with rfl | hk
        · exact hlt
        · exact lt_trans (h1 k hk) hlt
      · rw [List.pairwise_cons]
        exact ⟨h1, h2⟩
    · by_cases heq : p = p'
      · rw [insertDesc, if_neg hlt, if_pos heq]
        rw [bidsSorted, List.map_cons, List.pairwise_cons]
        exact ⟨h1, h2⟩
      · rw [insertDesc, if_neg hlt, if_neg heq]
        have hplt : p < p' := lt_of_le_of_ne (not_lt.mp hlt) heq
        rw [bidsSorted, List.map_cons, List.pairwise_cons]
        refine ⟨?_, ih h2⟩
        intro k hk
        rcases insertDesc_key_mem p o rest k hk with rfl | hk
        · exact hplt
        · exact h1 k hk

theorem insertAsc_sorted (p : ℚ) (o : Order) (l : List Level)
    (h : asksSorted l) : asksSorted (insertAsc p o l) := by
  induction l with
  | nil => simp [insertAsc, asksSorted]
  | cons lvl rest ih =>
    obtain ⟨p', q⟩ := lvl
    rw [asksSorted, List.map_cons, List.pairwise_cons] at h
    obtain ⟨h1, h2⟩ := h
    by_cases hlt : p < p'
    · rw [insertAsc, if_pos hlt]
      rw [asksSorted, List.map_cons, List.map_cons, List.pairwise_cons]
      refine ⟨?_, ?_⟩
      · intro k hk
        rcases List.mem_cons.mp hk with rfl | hk
        · exact hlt
        · exact lt_trans hlt (h1 k hk)
      · rw [List.pairwise_cons]
        exact ⟨h1, h2⟩
    · by_cases heq : p = p'
      · rw [insertAsc, if_neg hlt, if_pos heq]
        rw [asksSorted, List.map_cons, List.pairwise_cons]
        exact ⟨h1, h2⟩
      · rw [insertAsc, if_neg hlt, if_neg heq]
        have hplt : p' < p := lt_of_le_of_ne (not_lt.mp hlt) (Ne.symm heq)
        rw [asksSorted, List.map_cons, List.pairwise_cons]
        refine ⟨?_, ih h2⟩
        intro k hk
        rcases insertAsc_key_mem p o rest k hk with rfl | hk
        · exact hplt
        · exact h1 k hk

theorem insertDesc_noEmpty (p : ℚ) (o : Order) (l : List Level)
    (h : noEmpty l) : noEmpty (insertDesc p o l) := by
  induction l with
  | nil => intro lvl hlvl; simp [insertDesc] at hlvl; simp [hlvl]
  | cons lvl0 rest ih =>
    obtain ⟨p', q⟩ := lvl0
    have hrest : noEmpty rest := fun lvl hm => h lvl (List.mem_cons_of_mem _ hm)
    intro lvl hlvl
    by_cases h1 : p' < p
    · rw [insertDesc, if_pos h1] at hlvl
      rcases List.mem_cons.mp hlvl with rfl | hlvl
      · simp
      · exact h lvl hlvl
    · by_cases h2 : p = p'
      · rw [insertDesc, if_neg h1, if_pos h2] at hlvl
        rcases List.mem_cons.mp hlvl with rfl | hlvl
        · simp
        · exact hrest lvl hlvl
      · rw [insertDesc, if_neg h1, if_neg h2] at hlvl
        rcases List.mem_cons.mp hlvl with rfl | hlvl
        · exact h _ (List.mem_cons_self _ _)
        · exact ih hrest lvl hlvl

theorem insertAsc_noEmpty (p : ℚ) (o : Order) (l : List Level)
    (h : noEmpty l) : noEmpty (insertAsc p o l) := by
  induction l with
  | nil => intro lvl hlvl; simp [insertAsc] at hlvl; simp [hlvl]
  | cons lvl0 rest ih =>
    obtain ⟨p', q⟩ := lvl0
    have hrest : noEmpty rest := fun lvl hm => h lvl (List.mem_cons_of_mem _ hm)
    intro lvl hlvl
    by_cases h1 : p < p'
    · rw [insertAsc, if_pos h1] at hlvl
      rcases List.mem_cons.mp hlvl with rfl | hlvl
      · simp
      · exact h lvl hlvl
    · by_cases h2 : p = p'
      · rw [insertAsc, if_neg h1, if_pos h2] at hlvl
        rcases List.mem_cons.mp hlvl with rfl | hlvl
        · simp
        · exact hrest lvl hlvl
      · rw [insertAsc, if_neg h1, if_neg h2] at hlvl
        rcases List.mem_cons.mp hlvl with rfl | hlvl
        · exact h _ (List.mem_cons_self _ _)
        · exact ih hrest lvl hlvl

theorem lookupLevel_eq_none (l : List Level) (p : ℚ)
    (h : p ∉ l.map Prod.fst) : lookupLevel l p = none := by
  induction l with
  | nil => rfl
  | cons lvl rest ih =>
    obtain ⟨p', q⟩ := lvl
    have hne : p' ≠ p := by
      intro hEq
      exact h (by simp [hEq])
    rw [lookupLevel, if_neg hne]
    exact ih (fun hm => h (List.mem_cons_of_mem _ hm))

theorem insertDesc_lookup_self (p : ℚ) (o : Order) (l : List Level)
    (h : bidsSorted l) :
    lookupLevel (insertDesc p o l) p
      = some ((lookupLevel l p).getD [] ++ [o]) := by
  induction l with
  | nil => simp [insertDesc, lookupLevel]
  | cons lvl rest ih =>
    obtain ⟨p', q⟩ := lvl
    rw [bidsSorted, List.map_cons, List.pairwise_cons] at h
    obtain ⟨h1, h2⟩ := h
    by_cases hlt : p' < p
    · rw [insertDesc, if_pos hlt]
      have hnm : p ∉ ((p', q) :: rest).map Prod.fst := by
        simp only [List.map_cons, List.mem_cons]
        rintro (rfl | hm)
        · exact lt_irrefl p hlt
        · exact lt_irrefl p (lt_trans (h1 p hm) hlt)
      rw [lookupLevel_eq_none _ _ hnm]
      simp [lookupLevel]
    · by_cases heq : p = p'
      · rw [insertDesc, if_neg hlt, if_pos heq]
        rw [lookupLevel, if_pos heq.symm, lookupLevel, if_pos heq.symm]
        simp
      · rw [insertDesc, if_neg hlt, if_neg heq]
        rw [lookupLevel, if_neg (Ne.symm heq), lookupLevel,
          if_neg (Ne.symm heq)]
        exact ih h2

theorem insertAsc_lookup_self (p : ℚ) (o : Order) (l : List Level)
    (h : asksSorted l) :
    lookupLevel (insertAsc p o l) p
      = some ((lookupLevel l p).getD [] ++ [o]) := by
  induction l with
  | nil => simp [insertAsc, lookupLevel]
  | cons lvl rest ih =>
    obtain ⟨p', q⟩ := lvl
    rw [asksSorted, List.map_cons, List.pairwise_cons] at h
    obtain ⟨h1, h2⟩ := h
    by_cases hlt : p < p'
    · rw [insertAsc, if_pos hlt]
      have hnm : p ∉ ((p', q) :: rest).map Prod.fst := by
        simp only [List.map_cons, List.mem_cons]
        rintro (rfl | hm)
        · exact lt_irrefl p hlt
        · exact lt_irrefl p (lt_trans hlt (h1 p hm))
      rw [lookupLevel_eq_none _ _ hnm]
      simp [lookupLevel]
    · by_cases heq : p = p'
      · rw [insertAsc, if_neg hlt, if_pos heq]
        rw [lookupLevel, if_pos heq.symm, lookupLevel, if_pos heq.symm]
        simp
      · rw [insertAsc, if_neg hlt, if_neg heq]
        rw [lookupLevel, if_neg (Ne.symm heq), lookupLevel,
          if_neg (Ne.symm heq)]
        exact ih h2

theorem insertDesc_lookup_other (p : ℚ) (o : Order) (l : List Level)
    (p'' : ℚ) (h : p'' ≠ p) :
    lookupLevel (insertDesc p o l) p'' = lookupLevel l p'' := by
  induction l with
  | nil => simp [insertDesc, lookupLevel, Ne.symm h]
  | cons lvl rest ih =>
    obtain ⟨p', q⟩ := lvl
    by_cases h1 : p' < p
    · rw [insertDesc, if_pos h1, lookupLevel, if_neg (Ne.symm h)]
    · by_cases h2 : p = p'
      · subst h2
        rw [insertDesc, if_neg h1, if_pos rfl, lookupLevel, lookupLevel,
          if_neg (Ne.symm h), if_neg (Ne.symm h)]
      · rw [insertDesc, if_neg h1, if_neg h2, lookupLevel, lookupLevel]
        by_cases h3 : p' = p''
        · rw [if_pos h3, if_pos h3]
        · rw [if_neg h3, if_neg h3]
          exact ih

theorem insertAsc_lookup_other (p : ℚ) (o : Order) (l : List Level)
    (p'' : ℚ) (h : p'' ≠ p) :
    lookupLevel (insertAsc p o l) p'' = lookupLevel l p'' := by
  induction l with
  | nil => simp [insertAsc, lookupLevel, Ne.symm h]
  | cons lvl rest ih =>
    obtain ⟨p', q⟩ := lvl
    by_cases h1 : p < p'
    · rw [insertAsc, if_pos h1, lookupLevel, if_neg (Ne.symm h)]
    · by_cases h2 : p = p'
      · subst h2
        rw [insertAsc, if_neg h1, if_pos rfl, lookupLevel, lookupLevel,
          if_neg (Ne.symm h), if_neg (Ne.symm h)]
      · rw [insertAsc, if_neg h1, if_neg h2, lookupLevel, lookupLevel]
        by_cases h3 : p' = p''
        · rw [if_pos h3, if_pos h3]
        · rw [if_neg h3, if_neg h3]
          exact ih

/-! ### Lemmas about cancellation and the order index -/

theorem cancelLevel_keys_sublist (l : List Level) (p : ℚ) (oid : Int) :
    ((cancelLevel l p oid).map Prod.fst).Sublist (l.map Prod.fst) := by
  induction l with
  | nil => simp [cancelLevel]
  | cons lvl rest ih =>
    obtain ⟨p', q⟩ := lvl
    by_cases h1 : p' = p
    · rw [cancelLevel, if_pos h1]
      by_cases h2 : q.filter (fun o => o.orderID ≠ oid) = []
      · rw [if_pos h2]
        exact List.Sublist.cons _ (List.Sublist.refl _)
      · rw [if_neg h2]
        simp only [List.map_cons]
        exact List.Sublist.cons₂ _ (List.Sublist.refl _)
    · rw [cancelLevel, if_neg h1]
      simp only [List.map_cons]
      exact List.Sublist.cons₂ _ ih

theorem cancelLevel_bidsSorted (l : List Level) (p : ℚ) (oid : Int)
    (h : bidsSorted l) : bidsSorted (cancelLevel l p oid) :=
  List.Pairwise.sublist (cancelLevel_keys_sublist l p oid) h

theorem cancelLevel_asksSorted (l : List Level) (p : ℚ) (oid : Int)
    (h : asksSorted l) : asksSorted (cancelLevel l p oid) :=
  List.Pairwise.sublist (cancelLevel_keys_sublist l p oid) h

theorem cancelLevel_noEmpty (l : List Level) (p : ℚ) (oid : Int)
    (h : noEmpty l) : noEmpty (cancelLevel l p oid) := by
  induction l with
  | nil => intro lvl hlvl; simp [cancelLevel] at hlvl
  | cons lvl0 rest ih =>
    obtain ⟨p', q⟩ := lvl0
    have hrest : noEmpty rest := fun lvl hm => h lvl (List.mem_cons_of_mem _ hm)
    intro lvl hlvl
    by_cases h1 : p' = p
    · rw [cancelLevel, if_pos h1] at hlvl
      by_cases h2 : q.filter (fun o => o.orderID ≠ oid) = []
      · rw [if_pos h2] at hlvl
        exact hrest lvl hlvl
      · rw [if_neg h2] at hlvl
        rcases List.mem_cons.mp hlvl with rfl | hlvl
        · exact h2
        · exact hrest lvl hlvl
    · rw [cancelLevel, if_neg h1] at hlvl
      rcases List.mem_cons.mp hlvl with rfl | hlvl
      · exact h _ (List.mem_cons_self _ _)
      · exact ih hrest lvl hlvl

theorem cancelLevel_removes (l : List Level) (p : ℚ) (oid : Int)
    (hnd : (l.map Prod.fst).Nodup) :
    ∀ lq, lookupLevel (cancelLevel l p oid) p = some lq →
      ∀ o ∈ lq, o.orderID ≠ oid := by
  induction l with
  | nil => intro lq hlq; simp [cancelLevel, lookupLevel] at hlq
  | cons lvl0 rest ih =>
    obtain ⟨p', q⟩ := lvl0
    simp only [List.map_cons, List.nodup_cons] at hnd
    intro lq hlq
    by_cases h1 : p' = p
    · rw [cancelLevel, if_pos h1] at hlq
      by_cases h2 : q.filter (fun o => o.orderID ≠ oid) = []
      · rw [if_pos h2] at hlq
        have : p ∉ rest.map Prod.fst := h1 ▸ hnd.1
        rw [lookupLevel_eq_none rest p this] at hlq
        exact absurd hlq (by simp)
      · rw [if_neg h2] at hlq
        rw [lookupLevel, if_pos h1] at hlq
        obtain rfl : q.filter (fun o => o.orderID ≠ oid) = lq :=
          Option.some.injEq _ _ ▸ hlq
        intro o ho
        have := List.of_mem_filter ho
        simpa using this
    · rw [cancelLevel, if_neg h1] at hlq
      rw [lookupLevel, if_neg h1] at hlq
      exact ih hnd.2 lq hlq

theorem bidsSorted_nodup (l : List Level) (h : bidsSorted l) :
    (l.map Prod.fst).Nodup :=
  h.imp fun hlt => ne_of_gt hlt

theorem asksSorted_nodup (l : List Level) (h : asksSorted l) :
    (l.map Prod.fst).Nodup :=
  h.imp fun hlt => ne_of_lt hlt

theorem lookupLoc_eraseLoc_self (l : List (Int × Side × ℚ)) (oid : Int) :
    lookupLoc (eraseLoc l oid) oid = none := by
  induction l with
  | nil => rfl
  | cons e rest ih =>
    by_cases h : e.1 ≠ oid
    · rw [eraseLoc, List.filter_cons_of_pos (by simpa using h), lookupLoc,
        if_neg h]
      exact ih
    · rw [eraseLoc, List.filter_cons_of_neg (by simpa using h)]
      exact ih

theorem lookupLoc_append_of_none (l1 l2 : List (Int × Side × ℚ)) (oid : Int)
    (h : lookupLoc l1 oid = none) :
    lookupLoc (l1 ++ l2) oid = lookupLoc l2 oid := by
  induction l1 with
  | nil => rfl
  | cons e rest ih =>
    rw [lookupLoc] at h
    by_cases he : e.1 = oid
    · rw [if_pos he] at h
      exact absurd h (by simp)
    · rw [if_neg he] at h
      rw [List.cons_append, lookupLoc, if_neg he]
      exact ih h

theorem lookupLoc_setLoc_self (l : List (Int × Side × ℚ)) (oid : Int)
    (v : Side × ℚ) : lookupLoc (setLoc l oid v) oid = some v := by
  rw [setLoc, lookupLoc_append_of_none _ _ _ (lookupLoc_eraseLoc_self l oid),
    lookupLoc, if_pos rfl]

/-! ### Best-price cache lemmas -/

theorem liveKeys_of_noEmpty (l : List Level) (h : noEmpty l) :
    liveKeys l = l.map Prod.fst := by
  rw [liveKeys, List.filter_eq_self.mpr]
  intro lvl hlvl
  simpa using h lvl hlvl

theorem head_max_of_bidsSorted (l : List Level) (hs : bidsSorted l)
    (hne : noEmpty l) :
    (∀ m, l.head?.map Prod.fst = some m
        ↔ m ∈ liveKeys l ∧ ∀ k ∈ liveKeys l, k ≤ m)
      ∧ (l.head?.map Prod.fst = none ↔ liveKeys l = []) := by
  rw [liveKeys_of_noEmpty l hne]
  cases l with
  | nil => simp
  | cons lvl rest =>
    obtain ⟨p, q⟩ := lvl
    rw [bidsSorted, List.map_cons, List.pairwise_cons] at hs
    constructor
    · intro m
      constructor
      · intro hm
        have hm' : p = m := by simpa using hm
        subst hm'
        refine ⟨by simp, ?_⟩
        intro k hk
        rcases List.mem_cons.mp hk with rfl | hk
        · exact le_refl _
        · exact le_of_lt (hs.1 k hk)
      · rintro ⟨hmem, hmax⟩
        have h1 : m ≤ p := by
          rcases List.mem_cons.mp hmem with rfl | hm
          · exact le_refl _
          · exact le_of_lt (hs.1 m hm)
        have h2 : p ≤ m := hmax p (by simp)
        simp [le_antisymm h1 h2]
    · simp

theorem head_min_of_asksSorted (l : List Level) (hs : asksSorted l)
    (hne : noEmpty l) :
    (∀ m, l.head?.map Prod.fst = some m
        ↔ m ∈ liveKeys l ∧ ∀ k ∈ liveKeys l, m ≤ k)
      ∧ (l.head?.map Prod.fst = none ↔ liveKeys l = []) := by
  rw [liveKeys_of_noEmpty l hne]
  cases l with
  | nil => simp
  | cons lvl rest =>
    obtain ⟨p, q⟩ := lvl
    rw [asksSorted, List.map_cons, List.pairwise_cons] at hs
    constructor
    · intro m
      constructor
      · intro hm
        have hm' : p = m := by simpa using hm
        subst hm'
        refine ⟨by simp, ?_⟩
        intro k hk
        rcases List.mem_cons.mp hk with rfl | hk
        · exact le_refl _
        · exact le_of_lt (hs.1 k hk)
      · rintro ⟨hmem, hmax⟩
        have h1 : p ≤ m := by
          rcases List.mem_cons.mp hmem with rfl | hm
          · exact le_refl _
          · exact le_of_lt (hs.1 m hm)
        have h2 : m ≤ p := hmax p (by simp)
        simp [le_antisymm h2 h1]
    · simp

/-! ### Unfolding lemmas for `addOrder` -/

theorem addOrder_reject (b : OrderBook) (side : Side) (p : ℚ) (q oid : Int)
    (h : q ≤ 0) : addOrder b side p q oid = ⟨b, [], q⟩ := by
  rw [addOrder, if_pos h]

theorem addOrder_buy_rest (b : OrderBook) (p : ℚ) (q oid : Int) (hq : 0 < q)
    (hrest : 0 < (matchBuy oid p q b.asks).qtyLeft) :
    addOrder b Side.BUY p q oid =
      ⟨⟨insertDesc p ⟨oid, p, (matchBuy oid p q b.asks).qtyLeft,
            b.currentTimestamp + 1⟩ b.bids,
        (matchBuy oid p q b.asks).levels,
        setLoc (eraseAll b.orderLocation (matchBuy oid p q b.asks).filled)
          oid (Side.BUY, p),
        (insertDesc p ⟨oid, p, (matchBuy oid p q b.asks).qtyLeft,
            b.currentTimestamp + 1⟩ b.bids).head?.map Prod.fst,
        (matchBuy oid p q b.asks).levels.head?.map Prod.fst,
        b.currentTimestamp + 1⟩,
       (matchBuy oid p q b.asks).trades,
       (matchBuy oid p q b.asks).qtyLeft⟩ := by
  rw [addOrder, if_neg (not_le.mpr hq)]
  simp only [if_pos hrest]

theorem addOrder_buy_filled (b : OrderBook) (p : ℚ) (q oid : Int)
    (hq : 0 < q) (hrest : ¬ 0 < (matchBuy oid p q b.asks).qtyLeft) :
    addOrder b Side.BUY p q oid =
      ⟨⟨b.bids, (matchBuy oid p q b.asks).levels,
        eraseAll b.orderLocation (matchBuy oid p q b.asks).filled,
        b.bids.head?.map Prod.fst,
        (matchBuy oid p q b.asks).levels.head?.map Prod.fst,
        b.currentTimestamp + 1⟩,
       (matchBuy oid p q b.asks).trades,
       (matchBuy oid p q b.asks).qtyLeft⟩ := by
  rw [addOrder, if_neg (not_le.mpr hq)]
  simp only [if_neg hrest]

theorem addOrder_sell_rest (b : OrderBook) (p : ℚ) (q oid : Int) (hq : 0 < q)
    (hrest : 0 < (matchSell oid p q b.bids).qtyLeft) :
    addOrder b Side.SELL p q oid =
      ⟨⟨(matchSell oid p q b.bids).levels,
        insertAsc p ⟨oid, p, (matchSell oid p q b.bids).qtyLeft,
            b.currentTimestamp + 1⟩ b.asks,
        setLoc (eraseAll b.orderLocation (matchSell oid p q b.bids).filled)
          oid (Side.SELL, p),
        (matchSell oid p q b.bids).levels.head?.map Prod.fst,
        (insertAsc p ⟨oid, p, (matchSell oid p q b.bids).qtyLeft,
            b.currentTimestamp + 1⟩ b.asks).head?.map Prod.fst,
        b.currentTimestamp + 1⟩,
       (matchSell oid p q b.bids).trades,
       (matchSell oid p q b.bids).qtyLeft⟩ := by
  rw [addOrder, if_neg (not_le.mpr hq)]
  simp only [if_pos hrest]

theorem addOrder_sell_filled (b : OrderBook) (p : ℚ) (q oid : Int)
    (hq : 0 < q) (hrest : ¬ 0 < (matchSell oid p q b.bids).qtyLeft) :
    addOrder b Side.SELL p q oid =
      ⟨⟨(matchSell oid p q b.bids).levels, b.asks,
        eraseAll b.orderLocation (matchSell oid p q b.bids).filled,
        (matchSell oid p q b.bids).levels.head?.map Prod.fst,
        b.asks.head?.map Prod.fst,
        b.currentTimestamp + 1⟩,
       (matchSell oid p q b.bids).trades,
       (matchSell oid p q b.bids).qtyLeft⟩ := by
  rw [addOrder, if_neg (not_le.mpr hq)]
  simp only [if_neg hrest]

theorem matchLadder_keys_pairwise (a : Int) (cross : ℚ → Prop)
    [DecidablePred cross] (q : Int) (l : List Level)
    (R : ℚ → ℚ → Prop) (h : (l.map Prod.fst).Pairwise R) :
    (((matchLadder a cross q l).levels.map Prod.fst)).Pairwise R := by
  obtain ⟨n, hn⟩ := matchLadder_levels_suffix a cross q l
  rw [hn]
  exact List.Pairwise.sublist (List.drop_sublist n _) h

theorem addOrder_trades_buy (b : OrderBook) (p : ℚ) (q oid : Int)
    (hq : 0 < q) :
    (addOrder b Side.BUY p q oid).trades = (matchBuy oid p q b.asks).trades
      ∧ (addOrder b Side.BUY p q oid).residual
          = (matchBuy oid p q b.asks).qtyLeft
      ∧ (addOrder b Side.BUY p q oid).book.asks
          = (matchBuy oid p q b.asks).levels := by
  by_cases hrest : 0 < (matchBuy oid p q b.asks).qtyLeft
  · rw [addOrder_buy_rest b p q oid hq hrest]
    exact ⟨rfl, rfl, rfl⟩
  · rw [addOrder_buy_filled b p q oid hq hrest]
    exact ⟨rfl, rfl, rfl⟩

theorem addOrder_trades_sell (b : OrderBook) (p : ℚ) (q oid : Int)
    (hq : 0 < q) :
    (addOrder b Side.SELL p q oid).trades = (matchSell oid p q b.bids).trades
      ∧ (addOrder b Side.SELL p q oid).residual
          = (matchSell oid p q b.bids).qtyLeft
      ∧ (addOrder b Side.SELL p q oid).book.bids
          = (matchSell oid p q b.bids).levels := by
  by_cases hrest : 0 < (matchSell oid p q b.bids).qtyLeft
  · rw [addOrder_sell_rest b p q oid hq hrest]
    exact ⟨rfl, rfl, rfl⟩
  · rw [addOrder_sell_filled b p q oid hq hrest]
    exact ⟨rfl, rfl, rfl⟩

theorem bidCache_of (b' : OrderBook)
    (h1 : b'.bestBid = b'.bids.head?.map Prod.fst)
    (hs : bidsSorted b'.bids) (hne : noEmpty b'.bids) : bidCacheCorrect b' := by
  obtain ⟨hA, hB⟩ := head_max_of_bidsSorted b'.bids hs hne
  refine ⟨fun m => ?_, ?_⟩
  · rw [h1]
    exact hA m
  · rw [h1]
    exact hB

theorem askCache_of (b' : OrderBook)
    (h1 : b'.bestAsk = b'.asks.head?.map Prod.fst)
    (hs : asksSorted b'.asks) (hne : noEmpty b'.asks) : askCacheCorrect b' := by
  obtain ⟨hA, hB⟩ := head_min_of_asksSorted b'.asks hs hne
  refine ⟨fun m => ?_, ?_⟩
  · rw [h1]
    exact hA m
  · rw [h1]
    exact hB

/-! ### Demo books (the `main()` scenario of the source) -/

/-- Book after `addOrder(BUY, 100.0, 10, 1)` on a fresh book. -/
def book1 : OrderBook := (addOrder emptyBook Side.BUY 100 10 1).book

/-- Book after additionally `addOrder(SELL, 101.0, 5, 2)`. -/
def book2 : OrderBook := (addOrder book1 Side.SELL 101 5 2).book

/-! ### The claims -/

/-- C8: for every submission with `quantity <= 0`, `addOrder` rejects it
with no state mutation at all — the result book is exactly the input book
(ladders, index, cache and arrival counter included) and no trade is
emitted. -/
theorem claim_invalid_qty_reject (b : OrderBook) (side : Side) (p : ℚ)
    (q oid : Int) (h : q ≤ 0) :
    addOrder b side p q oid = ⟨b, [], q⟩ :=
  addOrder_reject b side p q oid h

theorem claim_invalid_qty_reject_witness :
    (0 : Int) ≤ 0
      ∧ addOrder book2 Side.BUY 100 0 7 = ⟨book2, [], 0⟩ :=
  ⟨le_refl 0, claim_invalid_qty_reject book2 Side.BUY 100 0 7 (le_refl 0)⟩

/-- C6: starting from a book with no empty levels, both `addOrder` (any
side, price, quantity, id) and `cancelOrder` (any id) leave every price
level of both ladders with a non-empty order queue. -/
theorem claim_no_empty_levels (b : OrderBook) (side : Side) (p : ℚ)
    (q oid coid : Int) (hb : noEmpty b.bids) (ha : noEmpty b.asks) :
    (noEmpty (addOrder b side p q oid).book.bids
      ∧ noEmpty (addOrder b side p q oid).book.asks)
    ∧ (noEmpty (cancelOrder b coid).1.bids
      ∧ noEmpty (cancelOrder b coid).1.asks) := by
  constructor
  · by_cases hq : q ≤ 0
    · rw [addOrder_reject b side p q oid hq]
      exact ⟨hb, ha⟩
    · have hq' : 0 < q := lt_of_not_le hq
      cases side with
      | BUY =>
        by_cases hrest : 0 < (matchBuy oid p q b.asks).qtyLeft
        · rw [addOrder_buy_rest b p q oid hq' hrest]
          exact ⟨insertDesc_noEmpty _ _ _ hb,
            matchLadder_noEmpty _ _ _ _ ha⟩
        · rw [addOrder_buy_filled b p q oid hq' hrest]
          exact ⟨hb, matchLadder_noEmpty _ _ _ _ ha⟩
      | SELL =>
        by_cases hrest : 0 < (matchSell oid p q b.bids).qtyLeft
        · rw [addOrder_sell_rest b p q oid hq' hrest]
          exact ⟨matchLadder_noEmpty _ _ _ _ hb,
            insertAsc_noEmpty _ _ _ ha⟩
        · rw [addOrder_sell_filled b p q oid hq' hrest]
          exact ⟨matchLadder_noEmpty _ _ _ _ hb, ha⟩
  · rcases hloc : lookupLoc b.orderLocation coid with _ | ⟨sd, pr⟩
    · simp only [cancelOrder, hloc]
      exact ⟨hb, ha⟩
    · cases sd with
      | BUY =>
        simp only [cancelOrder, hloc]
        exact ⟨cancelLevel_noEmpty _ _ _ hb, ha⟩
      | SELL =>
        simp only [cancelOrder, hloc]
        exact ⟨hb, cancelLevel_noEmpty _ _ _ ha⟩

theorem claim_no_empty_levels_witness :
    (noEmpty (addOrder book2 Side.SELL 99 8 3).book.bids
      ∧ noEmpty (addOrder book2 Side.SELL 99 8 3).book.asks)
    ∧ (noEmpty (cancelOrder book2 2).1.bids
      ∧ noEmpty (cancelOrder book2 2).1.asks) :=
  claim_no_empty_levels book2 Side.SELL 99 8 3 2 (by decide) (by decide)

/-- C5: starting from a well-formed book (ladders sorted, no empty levels,
cache correct), after any `addOrder` and after any `cancelOrder` the cached
`getBestBid` is exactly the maximum price whose bid queue is non-empty (or
the no-bid sentinel, modelled `none`, standing for the source's `0.0`) and
`getBestAsk` the minimum such ask price (sentinel standing for `DBL_MAX`) —
the cache is never stale. -/
theorem claim_best_price_cache (b : OrderBook) (side : Side) (p : ℚ)
    (q oid coid : Int) (hbs : bidsSorted b.bids) (has : asksSorted b.asks)
    (hbne : noEmpty b.bids) (hane : noEmpty b.asks)
    (hcb : bidCacheCorrect b) (hca : askCacheCorrect b) :
    (bidCacheCorrect (addOrder b side p q oid).book
      ∧ askCacheCorrect (addOrder b side p q oid).book)
    ∧ (bidCacheCorrect (cancelOrder b coid).1
      ∧ askCacheCorrect (cancelOrder b coid).1) := by
  constructor
  · by_cases hq : q ≤ 0
    · rw [addOrder, if_pos hq]
      exact ⟨hcb, hca⟩
    · have hq' : 0 < q := lt_of_not_le hq
      cases side with
      | BUY =>
        by_cases hrest : 0 < (matchBuy oid p q b.asks).qtyLeft
        · rw [addOrder_buy_rest b p q oid hq' hrest]
          exact ⟨bidCache_of _ rfl (insertDesc_sorted _ _ _ hbs)
              (insertDesc_noEmpty _ _ _ hbne),
            askCache_of _ rfl
              (matchLadder_keys_pairwise oid _ q b.asks _ has)
              (matchLadder_noEmpty _ _ _ _ hane)⟩
        · rw [addOrder_buy_filled b p q oid hq' hrest]
          exact ⟨bidCache_of _ rfl hbs hbne,
            askCache_of _ rfl
              (matchLadder_keys_pairwise oid _ q b.asks _ has)
              (matchLadder_noEmpty _ _ _ _ hane)⟩
      | SELL =>
        by_cases hrest : 0 < (matchSell oid p q b.bids).qtyLeft
        · rw [addOrder_sell_rest b p q oid hq' hrest]
          exact ⟨bidCache_of _ rfl
              (matchLadder_keys_pairwise oid _ q b.bids _ hbs)
              (matchLadder_noEmpty _ _ _ _ hbne),
            askCache_of _ rfl (insertAsc_sorted _ _ _ has)
              (insertAsc_noEmpty _ _ _ hane)⟩
        · rw [addOrder_sell_filled b p q oid hq' hrest]
          exact ⟨bidCache_of _ rfl
              (matchLadder_keys_pairwise oid _ q b.bids _ hbs)
              (matchLadder_noEmpty _ _ _ _ hbne),
            askCache_of _ rfl has hane⟩
  · rcases hloc : lookupLoc b.orderLocation coid with _ | ⟨sd, pr⟩
    · simp only [cancelOrder, hloc]
      exact ⟨hcb, hca⟩
    · cases sd with
      | BUY =>
        simp only [cancelOrder, hloc]
        exact ⟨bidCache_of _ rfl (cancelLevel_bidsSorted _ _ _ hbs)
            (cancelLevel_noEmpty _ _ _ hbne),
          askCache_of _ rfl has hane⟩
      | SELL =>
        simp only [cancelOrder, hloc]
        exact ⟨bidCache_of _ rfl hbs hbne,
          askCache_of _ rfl (cancelLevel_asksSorted _ _ _ has)
            (cancelLevel_noEmpty _ _ _ hane)⟩

theorem claim_best_price_cache_witness :
    (bidCacheCorrect (addOrder book2 Side.SELL 99 8 3).book
      ∧ askCacheCorrect (addOrder book2 Side.SELL 99 8 3).book)
    ∧ (bidCacheCorrect (cancelOrder book2 2).1
      ∧ askCacheCorrect (cancelOrder book2 2).1) :=
  claim_best_price_cache book2 Side.SELL 99 8 3 2
    (by decide) (by decide) (by decide) (by decide)
    (bidCache_of book2 (by decide) (by decide) (by decide))
    (askCache_of book2 (by decide) (by decide) (by decide))

/-- C9: `cancelOrder(id)` succeeds exactly when `id` is in the order
index: it returns `true`, erases the index entry and removes every order
with that id from the queue at its recorded side and price; on a missing
id it returns `false` and changes nothing; hence cancelling the same id
twice succeeds the first time and fails the second. -/
theorem claim_cancel_iff_resting (b : OrderBook) (oid : Int)
    (hbs : bidsSorted b.bids) (has : asksSorted b.asks) :
    ((cancelOrder b oid).2 = true
        ↔ (lookupLoc b.orderLocation oid).isSome = true)
    ∧ (lookupLoc b.orderLocation oid = none → cancelOrder b oid = (b, false))
    ∧ (∀ sd pr, lookupLoc b.orderLocation oid = some (sd, pr) →
        lookupLoc (cancelOrder b oid).1.orderLocation oid = none
        ∧ (∀ lq, lookupLevel (sideLadder (cancelOrder b oid).1 sd) pr
              = some lq → ∀ o ∈ lq, o.orderID ≠ oid))
    ∧ ((cancelOrder b oid).2 = true →
        (cancelOrder (cancelOrder b oid).1 oid).2 = false) := by
  rcases hloc : lookupLoc b.orderLocation oid with _ | ⟨sd, pr⟩
  · refine ⟨by simp [cancelOrder, hloc], fun _ => by simp [cancelOrder, hloc],
      ?_, ?_⟩
    · intro sd pr h
      exact absurd h (by simp)
    · intro h
      simp [cancelOrder, hloc] at h
  · cases sd with
    | BUY =>
      refine ⟨by simp [cancelOrder, hloc], ?_, ?_, ?_⟩
      · intro h
        exact absurd h (by simp)
      · intro sd' pr' h
        injection h with h'
        injection h' with hsd hpr
        subst hsd
        subst hpr
        constructor
        · simp only [cancelOrder, hloc]
          exact lookupLoc_eraseLoc_self _ _
        · intro lq hlq o ho
          simp only [cancelOrder, hloc, sideLadder] at hlq
          exact cancelLevel_removes b.bids pr oid
            (bidsSorted_nodup _ hbs) lq hlq o ho
      · intro _
        simp [cancelOrder, hloc, lookupLoc_eraseLoc_self]
    | SELL =>
      refine ⟨by simp [cancelOrder, hloc], ?_, ?_, ?_⟩
      · intro h
        exact absurd h (by simp)
      · intro sd' pr' h
        injection h with h'
        injection h' with hsd hpr
        subst hsd
        subst hpr
        constructor
        · simp only [cancelOrder, hloc]
          exact lookupLoc_eraseLoc_self _ _
        · intro lq hlq o ho
          simp only [cancelOrder, hloc, sideLadder] at hlq
          exact cancelLevel_removes b.asks pr oid
            (asksSorted_nodup _ has) lq hlq o ho
      · intro _
        simp [cancelOrder, hloc, lookupLoc_eraseLoc_self]

theorem claim_cancel_iff_resting_witness :
    (cancelOrder book2 2).2 = true
      ∧ (cancelOrder (cancelOrder book2 2).1 2).2 = false := by
  have h := claim_cancel_iff_resting book2 2 (by decide) (by decide)
  have h1 : (cancelOrder book2 2).2 = true := (h.1).mpr (by decide)
  exact ⟨h1, h.2.2.2 h1⟩

/-- C7: every trade of a submission executes at the resting (passive)
order's limit price — each emitted trade carries the price field of a
resting order of the pre-submission book — and in particular an incoming
SELL at 99.0 against a resting BUY at 100.0 trades at 100.0 (the spec's
scenario C: aggressor 3, resting 1, price 100, quantity 8). -/
theorem claim_resting_price_execution (b : OrderBook) (side : Side) (p : ℚ)
    (q oid : Int) :
    (∀ t ∈ (addOrder b side p q oid).trades,
      ∃ lvl, (lvl ∈ b.asks ∨ lvl ∈ b.bids) ∧ ∃ o ∈ lvl.2,
        t.restingID = o.orderID ∧ t.price = o.price)
    ∧ (addOrder book1 Side.SELL 99 8 3).trades
        = [⟨3, 1, 100, 8⟩] := by
  constructor
  · intro t ht
    by_cases hq : q ≤ 0
    · rw [addOrder_reject b side p q oid hq] at ht
      exact absurd ht (by simp)
    · have hq' : 0 < q := lt_of_not_le hq
      cases side with
      | BUY =>
        rw [(addOrder_trades_buy b p q oid hq').1] at ht
        obtain ⟨lvl, hlvl, _, o, ho, _, hid, hp, _⟩ :=
          matchLadder_trades_src oid _ q b.asks t ht
        exact ⟨lvl, Or.inl hlvl, o, ho, hid, hp⟩
      | SELL =>
        rw [(addOrder_trades_sell b p q oid hq').1] at ht
        obtain ⟨lvl, hlvl, _, o, ho, _, hid, hp, _⟩ :=
          matchLadder_trades_src oid _ q b.bids t ht
        exact ⟨lvl, Or.inr hlvl, o, ho, hid, hp⟩
  · decide

theorem claim_resting_price_execution_witness :
    ∃ lvl, (lvl ∈ book1.asks ∨ lvl ∈ book1.bids) ∧ ∃ o ∈ lvl.2,
      (Trade.mk 3 1 100 8).restingID = o.orderID
        ∧ (Trade.mk 3 1 100 8).price = o.price := by
  have h := claim_resting_price_execution book1 Side.SELL 99 8 3
  exact h.1 ⟨3, 1, 100, 8⟩ (by rw [h.2]; exact List.mem_singleton_self _)

/-- C1: price priority with inclusive crossing.  For a BUY submission every
trade price is at most the buy limit (`<=`, so equality is a match), trade
prices are emitted best-first (non-decreasing), every surviving ask level
is at a price no better than any traded price (a worse price never trades
before all strictly better resting liquidity is exhausted), and when the
best ask crosses the limit the first trade happens exactly at that best
price; dually for SELL. -/
theorem claim_price_priority (b : OrderBook) (side : Side) (p : ℚ)
    (q oid : Int) (hbs : bidsSorted b.bids) (has : asksSorted b.asks)
    (hpmb : pricesMatch b.bids) (hpma : pricesMatch b.asks)
    (hbne : noEmpty b.bids) (hane : noEmpty b.asks) (hq : 0 < q) :
    (side = Side.BUY →
      (∀ t ∈ (addOrder b side p q oid).trades, t.price ≤ p)
      ∧ ((addOrder b side p q oid).trades.map Trade.price).Pairwise (· ≤ ·)
      ∧ (∀ t ∈ (addOrder b side p q oid).trades,
          ∀ lvl ∈ (addOrder b side p q oid).book.asks, t.price ≤ lvl.1)
      ∧ (∀ pa lq, b.asks.head? = some (pa, lq) → pa ≤ p →
          (addOrder b side p q oid).trades.head?.map Trade.price = some pa))
    ∧ (side = Side.SELL →
      (∀ t ∈ (addOrder b side p q oid).trades, p ≤ t.price)
      ∧ ((addOrder b side p q oid).trades.map Trade.price).Pairwise
          (fun x y => y ≤ x)
      ∧ (∀ t ∈ (addOrder b side p q oid).trades,
          ∀ lvl ∈ (addOrder b side p q oid).book.bids, lvl.1 ≤ t.price)
      ∧ (∀ pa lq, b.bids.head? = some (pa, lq) → p ≤ pa →
          (addOrder b side p q oid).trades.head?.map Trade.price
            = some pa)) := by
  constructor
  · rintro rfl
    obtain ⟨htr, hres, hlv⟩ := addOrder_trades_buy b p q oid hq
    rw [htr, hlv]
    have hpp := matchLadder_prices oid (fun x => x ≤ p)
      (fun x y => x < y) (fun x y => x ≤ y)
      (fun x y h => le_of_lt h) (fun x => le_refl x) q b.asks has hpma
    refine ⟨?_, hpp.1, hpp.2, ?_⟩
    · intro t ht
      obtain ⟨lvl, hlvl, hcr, o, ho, _, _, hp, _⟩ :=
        matchLadder_trades_src oid _ q b.asks t ht
      rw [hp, hpma lvl hlvl o ho]
      exact hcr
    · intro pa lq hhead hcross
      cases hasks : b.asks with
      | nil => rw [hasks] at hhead; exact absurd hhead (by simp)
      | cons lvl0 rest =>
        rw [hasks] at hhead
        simp only [List.head?_cons, Option.some.injEq] at hhead
        subst hhead
        have hlqne : lq ≠ [] := by
          have := hane (pa, lq) (by rw [hasks]; exact List.mem_cons_self _ _)
          simpa using this
        cases lq with
        | nil => exact absurd rfl hlqne
        | cons o lq' =>
          have hop : o.price = pa :=
            hpma (pa, o :: lq')
              (by rw [hasks]; exact List.mem_cons_self _ _) o
              (List.mem_cons_self _ _)
          obtain ⟨ts, hts⟩ := matchLadder_progress oid (fun x => x ≤ p) q
            pa o lq' rest hq hcross
          show ((matchLadder oid (fun x => x ≤ p) q
            ((pa, o :: lq') :: rest)).trades).head?.map Trade.price = some pa
          rw [hts]
          simp [hop]
  · rintro rfl
    obtain ⟨htr, hres, hlv⟩ := addOrder_trades_sell b p q oid hq
    rw [htr, hlv]
    have hpp := matchLadder_prices oid (fun x => p ≤ x)
      (fun x y => y < x) (fun x y => y ≤ x)
      (fun x y h => le_of_lt h) (fun x => le_refl x) q b.bids hbs hpmb
    refine ⟨?_, hpp.1, hpp.2, ?_⟩
    · intro t ht
      obtain ⟨lvl, hlvl, hcr, o, ho, _, _, hp, _⟩ :=
        matchLadder_trades_src oid _ q b.bids t ht
      rw [hp, hpmb lvl hlvl o ho]
      exact hcr
    · intro pa lq hhead hcross
      cases hbids : b.bids with
      | nil => rw [hbids] at hhead; exact absurd hhead (by simp)
      | cons lvl0 rest =>
        rw [hbids] at hhead
        simp only [List.head?_cons, Option.some.injEq] at hhead
        subst hhead
        have hlqne : lq ≠ [] := by
          have := hbne (pa, lq) (by rw [hbids]; exact List.mem_cons_self _ _)
          simpa using this
        cases lq with
        | nil => exact absurd rfl hlqne
        | cons o lq' =>
          have hop : o.price = pa :=
            hpmb (pa, o :: lq')
              (by rw [hbids]; exact List.mem_cons_self _ _) o
              (List.mem_cons_self _ _)
          obtain ⟨ts, hts⟩ := matchLadder_progress oid (fun x => p ≤ x) q
            pa o lq' rest hq hcross
          show ((matchLadder oid (fun x => p ≤ x) q
            ((pa, o :: lq') :: rest)).trades).head?.map Trade.price = some pa
          rw [hts]
          simp [hop]

theorem claim_price_priority_witness :
    (addOrder book2 Side.SELL 99 8 3).trades.head?.map Trade.price
      = some 100 := by
  have h := claim_price_priority book2 Side.SELL 99 8 3 (by decide)
    (by decide) (by decide) (by decide) (by decide) (by decide) (by decide)
  exact (h.2 rfl).2.2.2 100 [⟨1, 100, 10, 1⟩] (by decide) (by decide)

/-- C2: time priority.  Within a price level's queue, matching consumes
orders strictly front-to-back: a prefix of `k` resting orders is filled
completely and removed (their ids are exactly the first `k` queue ids),
the trades' resting ids are a prefix of the queue's ids, every surviving
order behind the front keeps its exact pre-match state, and only the new
front may have been partially reduced — so an earlier order is matched
completely before a later one trades anything.  Moreover a submission's
unfilled remainder rests at the back of its price level's queue. -/
theorem claim_time_priority :
    (∀ (a q : Int) (l : List Order), ∃ k, k ≤ l.length ∧
      (matchQueue a q l).filled = (l.take k).map Order.orderID ∧
      (matchQueue a q l).queue.map Order.orderID
        = (l.map Order.orderID).drop k ∧
      (matchQueue a q l).queue.tail = (l.drop k).tail ∧
      (matchQueue a q l).trades.map Trade.restingID
        = (l.map Order.orderID).take (matchQueue a q l).trades.length)
    ∧ (∀ (b : OrderBook) (p : ℚ) (q oid : Int), 0 < q → bidsSorted b.bids →
        0 < (addOrder b Side.BUY p q oid).residual →
        lookupLevel (addOrder b Side.BUY p q oid).book.bids p
          = some ((lookupLevel b.bids p).getD []
              ++ [⟨oid, p, (addOrder b Side.BUY p q oid).residual,
                   b.currentTimestamp + 1⟩]))
    ∧ (∀ (b : OrderBook) (p : ℚ) (q oid : Int), 0 < q → asksSorted b.asks →
        0 < (addOrder b Side.SELL p q oid).residual →
        lookupLevel (addOrder b Side.SELL p q oid).book.asks p
          = some ((lookupLevel b.asks p).getD []
              ++ [⟨oid, p, (addOrder b Side.SELL p q oid).residual,
                   b.currentTimestamp + 1⟩])) := by
  refine ⟨?_, ?_, ?_⟩
  · intro a q l
    obtain ⟨k, hk, h1, h2, h3, h4, _, _⟩ := matchQueue_struct a q l
    exact ⟨k, hk, h1, h2, h3, h4⟩
  · intro b p q oid hq hbs hres
    have hres' : 0 < (matchBuy oid p q b.asks).qtyLeft := by
      rwa [(addOrder_trades_buy b p q oid hq).2.1] at hres
    rw [(addOrder_trades_buy b p q oid hq).2.1,
      addOrder_buy_rest b p q oid hq hres']
    simpa using insertDesc_lookup_self p
      ⟨oid, p, (matchBuy oid p q b.asks).qtyLeft, b.currentTimestamp + 1⟩
      b.bids hbs
  · intro b p q oid hq has hres
    have hres' : 0 < (matchSell oid p q b.bids).qtyLeft := by
      rwa [(addOrder_trades_sell b p q oid hq).2.1] at hres
    rw [(addOrder_trades_sell b p q oid hq).2.1,
      addOrder_sell_rest b p q oid hq hres']
    simpa using insertAsc_lookup_self p
      ⟨oid, p, (matchSell oid p q b.bids).qtyLeft, b.currentTimestamp + 1⟩
      b.asks has

theorem claim_time_priority_witness :
    lookupLevel (addOrder book1 Side.BUY 100 5 4).book.bids 100
      = some ((lookupLevel book1.bids 100).getD []
          ++ [⟨4, 100, (addOrder book1 Side.BUY 100 5 4).residual,
               book1.currentTimestamp + 1⟩]) :=
  claim_time_priority.2.1 book1 100 5 4 (by decide) (by decide) (by decide)

/-- C3: quantity conservation.  For a positive-quantity submission, the
submitted quantity equals the sum of the emitted trade quantities plus the
residual left to rest (zero when fully filled), and every emitted trade's
quantity is exactly the minimum of the aggressor's remaining quantity
before that trade and the resting order's pre-trade book quantity (hence
is at most each of them). -/
theorem claim_quantity_conservation (b : OrderBook) (side : Side) (p : ℚ)
    (q oid : Int) (hq : 0 < q) :
    (q = ((addOrder b side p q oid).trades.map Trade.qty).sum
       + (addOrder b side p q oid).residual)
    ∧ (∀ pre t post, (addOrder b side p q oid).trades = pre ++ t :: post →
        ∃ lvl, (lvl ∈ b.asks ∨ lvl ∈ b.bids) ∧ ∃ o ∈ lvl.2,
          t.restingID = o.orderID
          ∧ t.qty = min (q - (pre.map Trade.qty).sum) o.quantity) := by
  cases side with
  | BUY =>
    obtain ⟨htr, hres, _⟩ := addOrder_trades_buy b p q oid hq
    rw [htr, hres]
    refine ⟨matchLadder_conserv oid _ q b.asks, ?_⟩
    intro pre t post h
    obtain ⟨lvl, hlvl, o, ho, hid, hqty⟩ :=
      matchLadder_trade_qty oid _ q b.asks pre t post h
    exact ⟨lvl, Or.inl hlvl, o, ho, hid, hqty⟩
  | SELL =>
    obtain ⟨htr, hres, _⟩ := addOrder_trades_sell b p q oid hq
    rw [htr, hres]
    refine ⟨matchLadder_conserv oid _ q b.bids, ?_⟩
    intro pre t post h
    obtain ⟨lvl, hlvl, o, ho, hid, hqty⟩ :=
      matchLadder_trade_qty oid _ q b.bids pre t post h
    exact ⟨lvl, Or.inr hlvl, o, ho, hid, hqty⟩

theorem claim_quantity_conservation_witness :
    ((8 : Int) = (((addOrder book2 Side.SELL 99 8 3).trades.map Trade.qty).sum
        + (addOrder book2 Side.SELL 99 8 3).residual))
    ∧ ∃ lvl, (lvl ∈ book2.asks ∨ lvl ∈ book2.bids) ∧ ∃ o ∈ lvl.2,
        (Trade.mk 3 1 100 8).restingID = o.orderID
        ∧ (Trade.mk 3 1 100 8).qty
            = min ((8 : Int) - (([] : List Trade).map Trade.qty).sum)
                o.quantity := by
  have h := claim_quantity_conservation book2 Side.SELL 99 8 3 (by decide)
  exact ⟨h.1, h.2 [] ⟨3, 1, 100, 8⟩ [] (by decide)⟩

/-- C10: a non-crossing submission (strictly below the best ask for BUY,
strictly above the best bid for SELL, or empty opposite side) emits no
trades, leaves the opposite ladder untouched, rests the full quantity at
the back of its own price level (other levels of the own ladder
unchanged), adds the index entry, bumps the arrival counter, and refreshes
the best-price cache to the ladder heads. -/
theorem claim_noncrossing_frame (b : OrderBook) (side : Side) (p : ℚ)
    (q oid : Int) (hq : 0 < q) (hbs : bidsSorted b.bids)
    (has : asksSorted b.asks)
    (hncb : side = Side.BUY → ∀ lvl ∈ b.asks.head?, p < lvl.1)
    (hncs : side = Side.SELL → ∀ lvl ∈ b.bids.head?, lvl.1 < p) :
    (addOrder b side p q oid).trades = []
    ∧ (addOrder b side p q oid).residual = q
    ∧ (side = Side.BUY →
        (addOrder b side p q oid).book.asks = b.asks
        ∧ (addOrder b side p q oid).book.bids
            = insertDesc p ⟨oid, p, q, b.currentTimestamp + 1⟩ b.bids
        ∧ lookupLevel (addOrder b side p q oid).book.bids p
            = some ((lookupLevel b.bids p).getD []
                ++ [⟨oid, p, q, b.currentTimestamp + 1⟩])
        ∧ ∀ p', p' ≠ p → lookupLevel (addOrder b side p q oid).book.bids p'
            = lookupLevel b.bids p')
    ∧ (side = Side.SELL →
        (addOrder b side p q oid).book.bids = b.bids
        ∧ (addOrder b side p q oid).book.asks
            = insertAsc p ⟨oid, p, q, b.currentTimestamp + 1⟩ b.asks
        ∧ lookupLevel (addOrder b side p q oid).book.asks p
            = some ((lookupLevel b.asks p).getD []
                ++ [⟨oid, p, q, b.currentTimestamp + 1⟩])
        ∧ ∀ p', p' ≠ p → lookupLevel (addOrder b side p q oid).book.asks p'
            = lookupLevel b.asks p')
    ∧ (addOrder b side p q oid).book.orderLocation
        = setLoc b.orderLocation oid (side, p)
    ∧ (addOrder b side p q oid).book.currentTimestamp = b.currentTimestamp + 1
    ∧ (addOrder b side p q oid).book.bestBid
        = (addOrder b side p q oid).book.bids.head?.map Prod.fst
    ∧ (addOrder b side p q oid).book.bestAsk
        = (addOrder b side p q oid).book.asks.head?.map Prod.fst := by
  cases side with
  | BUY =>
    have hfr : matchBuy oid p q b.asks = ⟨[], q, b.asks, []⟩ := by
      apply matchLadder_frame
      intro lvl hlvl
      exact not_le.mpr (hncb rfl lvl hlvl)
    have hrest : 0 < (matchBuy oid p q b.asks).qtyLeft := by
      rw [hfr]
      exact hq
    rw [addOrder_buy_rest b p q oid hq hrest, hfr]
    refine ⟨rfl, rfl, ?_, ?_, rfl, rfl, rfl, rfl⟩
    · intro _
      refine ⟨rfl, rfl, ?_, ?_⟩
      · exact insertDesc_lookup_self p ⟨oid, p, q, b.currentTimestamp + 1⟩
          b.bids hbs
      · intro p' hp'
        exact insertDesc_lookup_other p ⟨oid, p, q, b.currentTimestamp + 1⟩
          b.bids p' hp'
    · intro hcon
      exact absurd hcon (by decide)
  | SELL =>
    have hfr : matchSell oid p q b.bids = ⟨[], q, b.bids, []⟩ := by
      apply matchLadder_frame
      intro lvl hlvl
      exact not_le.mpr (hncs rfl lvl hlvl)
    have hrest : 0 < (matchSell oid p q b.bids).qtyLeft := by
      rw [hfr]
      exact hq
    rw [addOrder_sell_rest b p q oid hq hrest, hfr]
    refine ⟨rfl, rfl, ?_, ?_, rfl, rfl, rfl, rfl⟩
    · intro hcon
      exact absurd hcon (by decide)
    · intro _
      refine ⟨rfl, rfl, ?_, ?_⟩
      · exact insertAsc_lookup_self p ⟨oid, p, q, b.currentTimestamp + 1⟩
          b.asks has
      · intro p' hp'
        exact insertAsc_lookup_other p ⟨oid, p, q, b.currentTimestamp + 1⟩
          b.asks p' hp'

theorem claim_noncrossing_frame_witness :
    (addOrder book2 Side.BUY 99 3 7).trades = []
    ∧ (addOrder book2 Side.BUY 99 3 7).residual = 3
    ∧ (addOrder book2 Side.BUY 99 3 7).book.asks = book2.asks := by
  have hnc : ∀ lvl ∈ book2.asks.head?, (99 : ℚ) < lvl.1 := by
    intro lvl hlvl
    rw [Option.mem_def,
      show book2.asks.head? = some ((101 : ℚ), [⟨2, 101, 5, 2⟩]) from
        by decide] at hlvl
    injection hlvl with h'
    rw [← h']
    decide
  have h := claim_noncrossing_frame book2 Side.BUY 99 3 7 (by decide)
    (by decide) (by decide) (fun _ => hnc) (fun hcon => absurd hcon (by decide))
  exact ⟨h.1, h.2.1, (h.2.2.1 rfl).1⟩

/-- C4 as stated is false on the code: `addOrder` performs no
duplicate-id check.  With order id 1 resting (so active in the index), a
second submission reusing id 1 is not rejected: the book state changes
(the new order rests on a new level and the arrival counter advances),
refuting "no matching occurs, nothing rests, and the book state is
unchanged". -/
theorem claim_duplicate_id_counterexample :
    (lookupLoc book1.orderLocation 1).isSome = true
    ∧ ¬ ((addOrder book1 Side.BUY 90 5 1).book = book1
          ∧ (addOrder book1 Side.BUY 90 5 1).trades = []) := by
  constructor
  · decide
  · intro hcon
    have h := congrArg OrderBook.currentTimestamp hcon.1
    revert h
    decide

/-- C4 (amended): submissions reusing an active order id are not rejected —
`addOrder` runs the normal path regardless: the arrival counter is bumped,
and whenever a remainder rests, the order index entry for that id is
overwritten with the new side and price. -/
theorem claim_duplicate_id_amended (b : OrderBook) (side : Side) (p : ℚ)
    (q oid : Int) (hq : 0 < q)
    (_hactive : (lookupLoc b.orderLocation oid).isSome = true) :
    (addOrder b side p q oid).book.currentTimestamp = b.currentTimestamp + 1
    ∧ (0 < (addOrder b side p q oid).residual →
        lookupLoc (addOrder b side p q oid).book.orderLocation oid
          = some (side, p)) := by
  cases side with
  | BUY =>
    by_cases hrest : 0 < (matchBuy oid p q b.asks).qtyLeft
    · rw [addOrder_buy_rest b p q oid hq hrest]
      exact ⟨rfl, fun _ => lookupLoc_setLoc_self _ _ _⟩
    · rw [addOrder_buy_filled b p q oid hq hrest]
      exact ⟨rfl, fun h => absurd h hrest⟩
  | SELL =>
    by_cases hrest : 0 < (matchSell oid p q b.bids).qtyLeft
    · rw [addOrder_sell_rest b p q oid hq hrest]
      exact ⟨rfl, fun _ => lookupLoc_setLoc_self _ _ _⟩
    · rw [addOrder_sell_filled b p q oid hq hrest]
      exact ⟨rfl, fun h => absurd h hrest⟩

theorem claim_duplicate_id_amended_witness :
    (addOrder book1 Side.BUY 90 5 1).book.currentTimestamp
        = book1.currentTimestamp + 1
    ∧ lookupLoc (addOrder book1 Side.BUY 90 5 1).book.orderLocation 1
        = some (Side.BUY, 90) := by
  have h := claim_duplicate_id_amended book1 Side.BUY 90 5 1 (by decide)
    (by decide)
  exact ⟨h.1, h.2 (by decide)⟩

end OrderBookModel
